import Mathlib

/-!
Verification of the string-case-conversion utility
(src/refined_prompt.js and src/basic_prompt.js).

Strings are modelled as lists of character codes (List Nat); the embedding
covers the ASCII fragment of the JavaScript character classes (the regex
classes \s, \p{L}, \p{N}, [a-z0-9] and the methods toLowerCase/toUpperCase
are modelled on ASCII code points, which is exact for every ASCII input).
JavaScript values reaching the public functions are modelled by the
inductive JSVal below (null, undefined, numbers, booleans, strings);
JavaScript numbers are modelled as integers together with NaN and the
two infinities, which is exact for the integer inputs the pipeline
produces via parseInt on digit runs (float imprecision above 2^53 is
not modelled; no claim depends on it).
-/

/-- Character-code strings: the model of JavaScript strings. -/
abbrev Str := List Nat

/-- Literal helper: the code points of a Lean string literal. -/
def strLit (s : String) : Str := s.toList.map Char.toNat

/-- ASCII fragment of the regex class \s (space, tab, LF, VT, FF, CR). -/
def isWS (c : Nat) : Bool := decide (c = 32 ∨ c = 9 ∨ c = 10 ∨ c = 11 ∨ c = 12 ∨ c = 13)

/-- Uppercase ASCII letter ([A-Z]). -/
def isUpperN (c : Nat) : Bool := decide (65 ≤ c ∧ c ≤ 90)

/-- Lowercase ASCII letter ([a-z]). -/
def isLowerN (c : Nat) : Bool := decide (97 ≤ c ∧ c ≤ 122)

/-- ASCII digit ([0-9], the ASCII fragment of \d and \p{N}). -/
def isDigitN (c : Nat) : Bool := decide (48 ≤ c ∧ c ≤ 57)

/-- ASCII letter (the ASCII fragment of \p{L}). -/
def isLetterN (c : Nat) : Bool := isUpperN c || isLowerN c

/-- JavaScript String.prototype.toLowerCase, ASCII fragment, one character. -/
def lowerN (c : Nat) : Nat := if isUpperN c then c + 32 else c

/-- JavaScript String.prototype.toUpperCase, ASCII fragment, one character. -/
def upperN (c : Nat) : Nat := if isLowerN c then c - 32 else c

/-- Lowercase a whole string (s.toLowerCase()). -/
def lowerStr (s : Str) : Str := s.map lowerN

/-- JavaScript String.prototype.trim (ASCII whitespace fragment). -/
def trimStr (s : Str) : Str := ((s.dropWhile isWS).reverse.dropWhile isWS).reverse

/-- Accumulator-based splitter on whitespace runs; models
s.split(/\s+/).filter(Boolean): returns the maximal runs of
non-whitespace characters, in order, dropping empties. -/
def splitWSAux : Str → Str → List Str
  | [], acc => if acc.isEmpty then [] else [acc.reverse]
  | c :: cs, acc =>
    if isWS c then
      if acc.isEmpty then splitWSAux cs [] else acc.reverse :: splitWSAux cs []
    else splitWSAux cs (c :: acc)

/-- s.split(/\s+/).filter(Boolean). -/
def splitWS (s : Str) : List Str := splitWSAux s []

/-- Characters kept by the refined-pipeline cleaning regex:
letters, digits, the dot, and whitespace (complement of [^\p{L}\p{N}.\s]). -/
def keepRefined (c : Nat) : Bool := isLetterN c || isDigitN c || c == 46 || isWS c

/-- trimmed.replace(/[^\p{L}\p{N}.\s]+/gu, " "): each maximal run of
non-kept characters becomes a single space.  The Boolean flag records
whether the previous character was part of such a run. -/
def cleanRefinedAux : Bool → Str → Str
  | _, [] => []
  | inRun, c :: cs =>
    if keepRefined c then c :: cleanRefinedAux false cs
    else if inRun then cleanRefinedAux true cs
    else 32 :: cleanRefinedAux true cs

/-- trimmed.replace(/[^\p{L}\p{N}.\s]+/gu, " "). -/
def cleanRefined (s : Str) : Str := cleanRefinedAux false s

/-- s.split("."), keeping empty groups (JavaScript semantics). -/
def splitOnDot : Str → List Str
  | [] => [[]]
  | c :: cs =>
    if c == 46 then [] :: splitOnDot cs
    else
      match splitOnDot cs with
      | [] => [[c]]
      | g :: gs => (c :: g) :: gs

/-- token.replace(/\./g, "") and similar dot removals. -/
def removeDots (s : Str) : Str := s.filter (fun c => c != 46)

/-- part.replace(/\./g, " "). -/
def dotsToSpaces (s : Str) : Str := s.map (fun c => if c == 46 then 32 else c)

/-- p.replace(/[^\p{L}]+/gu, ""): keep only letters. -/
def onlyLetters (s : Str) : Str := s.filter isLetterN

/-- The test of acronymRegex = /^[A-Z]{2,}(\.[A-Z]{2,})*$/ :
dot-separated groups, each of two or more uppercase letters. -/
def matchesAcronym (t : Str) : Bool :=
  (splitOnDot t).all (fun g => decide (2 ≤ g.length) && g.all isUpperN)

/-- Greedily consume leading (uppercase letter, dot) pairs; returns the
number of pairs consumed and the remainder.  Both dotted-acronym regexes
are anchored and start with (?:[A-Z]\.){2,}; since the remainder never
starts with a further uppercase-letter-dot pair, testing the remainder
against the short tail pattern is exactly the regex test. -/
def dropPairs : Str → Nat × Str
  | a :: b :: rest =>
    if isUpperN a && b == 46 then
      let p := dropPairs rest
      (p.1 + 1, p.2)
    else (0, a :: b :: rest)
  | s => (0, s)

/-- The test of toCamelCase dottedAcronymRegex = /^(?:[A-Z]\.){2,}[A-Z]?$/. -/
def matchesDottedCamel (t : Str) : Bool :=
  let p := dropPairs t
  decide (2 ≤ p.1) &&
    (match p.2 with
     | [] => true
     | [u] => isUpperN u
     | _ => false)

/-- The test of toDotCase dottedAcronymRegex = /^(?:[A-Z]\.){2,}[A-Z]?\.?$/
(same as the camel one but an optional trailing dot is allowed). -/
def matchesDottedDot (t : Str) : Bool :=
  let p := dropPairs t
  decide (2 ≤ p.1) &&
    (match p.2 with
     | [] => true
     | [u] => isUpperN u || u == 46
     | [u, d] => isUpperN u && d == 46
     | _ => false)

/-- JavaScript array joining with the given separator. -/
def joinSep (sep : Str) : List Str → Str
  | [] => []
  | [x] => x
  | x :: y :: rest => x ++ sep ++ joinSep sep (y :: rest)

/-- Decimal digit character code (0-9 map to "0"-"9"). -/
def digitCode (d : Nat) : Nat := 48 + d

/-- Decimal representation of a natural number, with explicit fuel
(the fuel n+1 always suffices for n, since n shrinks by a factor of ten
at each step). -/
def natToStrAux : Nat → Nat → Str
  | 0, _ => []
  | fuel + 1, n =>
    if n < 10 then [digitCode n]
    else natToStrAux fuel (n / 10) ++ [digitCode (n % 10)]

/-- JavaScript String(n) for a non-negative integer. -/
def natToStr (n : Nat) : Str := natToStrAux (n + 1) n

/-- JavaScript String(i) for an integer (minus sign for negatives). -/
def intToStr (i : Int) : Str :=
  match i with
  | Int.ofNat n => natToStr n
  | Int.negSucc n => 45 :: natToStr (n + 1)

/-- A JavaScript number: a finite integer, NaN, or an infinity. -/
inductive JSNum where
  | fin (i : Int)
  | nan
  | inf
  | ninf
deriving DecidableEq

/-- A JavaScript value as it reaches the public functions. -/
inductive JSVal where
  | vnull
  | vundef
  | vnum (n : JSNum)
  | vbool (b : Bool)
  | vstr (s : Str)
deriving DecidableEq

/-- JavaScript String(v). -/
def jsToString : JSVal → Str
  | .vnull => strLit "null"
  | .vundef => strLit "undefined"
  | .vnum (.fin i) => intToStr i
  | .vnum .nan => strLit "NaN"
  | .vnum .inf => strLit "Infinity"
  | .vnum .ninf => strLit "-Infinity"
  | .vbool true => strLit "true"
  | .vbool false => strLit "false"
  | .vstr s => s

/-- The lookup table belowTwenty of numberToWords. -/
def belowTwenty : List Str :=
  [strLit "zero", strLit "one", strLit "two", strLit "three", strLit "four",
   strLit "five", strLit "six", strLit "seven", strLit "eight", strLit "nine",
   strLit "ten", strLit "eleven", strLit "twelve", strLit "thirteen",
   strLit "fourteen", strLit "fifteen", strLit "sixteen", strLit "seventeen",
   strLit "eighteen", strLit "nineteen"]

/-- The lookup table tens of numberToWords. -/
def tensTable : List Str :=
  [[], [], strLit "twenty", strLit "thirty", strLit "forty", strLit "fifty",
   strLit "sixty", strLit "seventy", strLit "eighty", strLit "ninety"]

/-- The parts array the inner helper underThousand of numberToWords
builds before joining: a hundreds pair when n is at least 100, then a
tens word and optional ones word for a remainder of at least 20, else a
belowTwenty word when the remainder is positive or nothing was pushed. -/
def underThousandParts (n : Nat) : List Str :=
  let base : List Str × Nat :=
    if 100 ≤ n then ([belowTwenty.getD (n / 100) [], strLit "hundred"], n % 100)
    else ([], n)
  if 20 ≤ base.2 then
    base.1 ++ [tensTable.getD (base.2 / 10) []] ++
      (if base.2 % 10 ≠ 0 then [belowTwenty.getD (base.2 % 10) []] else [])
  else if 0 < base.2 ∨ base.1.isEmpty then base.1 ++ [belowTwenty.getD base.2 []]
  else base.1

/-- The inner helper underThousand of numberToWords: parts.join(" "). -/
def underThousand (n : Nat) : Str := joinSep [32] (underThousandParts n)

/-- The scales table of numberToWords (value, name). -/
def scalesTable : List (Nat × Str) :=
  [(1000000000, strLit "billion"), (1000000, strLit "million"), (1000, strLit "thousand")]

/-- One iteration of the scales loop of numberToWords: when the remaining
value reaches the scale, push the spelled chunk and the scale name and
keep the remainder. -/
def numberScaleStep (acc : List Str × Nat) (s : Nat × Str) : List Str × Nat :=
  if s.1 ≤ acc.2 then (acc.1 ++ [underThousand (acc.2 / s.1), s.2], acc.2 % s.1)
  else acc

/-- The out array of numberToWords before joining, for a positive number
below 10^12. -/
def numberToWordsParts (num : Nat) : List Str :=
  let r := scalesTable.foldl numberScaleStep ([], num)
  if 0 < r.2 then r.1 ++ [underThousand r.2] else r.1

/-- The main body of numberToWords for in-range numbers. -/
def numberToWordsNat (num : Nat) : Str :=
  if num = 0 then strLit "zero"
  else joinSep [32] (numberToWordsParts num)

/-- numberToWords of src/refined_prompt.js: guard
typeof num !== "number" || !isFinite(num) || num < 0 returns String(num);
then num >= 1e12 returns String(num); otherwise spell the number. -/
def numberToWords (v : JSVal) : Str :=
  match v with
  | .vnum (.fin i) =>
    if i < 0 then jsToString v
    else if 1000000000000 ≤ i then jsToString v
    else numberToWordsNat i.toNat
  | _ => jsToString v

/-- token.split(/(\d+)/).filter(Boolean): maximal alternating runs of
digits and non-digits, in order (never empty).  The accumulator holds the
digit-ness and the reversed characters of the current run. -/
def splitRunsAux : Option (Bool × Str) → Str → List Str
  | none, [] => []
  | some p, [] => [p.2.reverse]
  | none, c :: cs => splitRunsAux (some (isDigitN c, [c])) cs
  | some p, c :: cs =>
    if isDigitN c == p.1 then splitRunsAux (some (p.1, c :: p.2)) cs
    else p.2.reverse :: splitRunsAux (some (isDigitN c, [c])) cs

/-- token.split(/(\d+)/).filter(Boolean). -/
def splitDigitRuns (t : Str) : List Str := splitRunsAux none t

/-- The test of /^\d+$/. -/
def isAllDigits (p : Str) : Bool := !p.isEmpty && p.all isDigitN

/-- parseInt(part, 10) for an all-digit part. -/
def parseDigits (p : Str) : Nat := p.foldl (fun a d => a * 10 + (d - 48)) 0

/-- The word texts a digit run contributes:
numberToWords(parseInt(part)).split(/\s+/), each pushed lowercased. -/
def digitTexts (part : Str) : List Str :=
  (splitWS (numberToWords (.vnum (.fin (parseDigits part))))).map lowerStr

/-- The word texts a non-digit part contributes: replace dots by spaces,
split on whitespace, strip non-letters, drop empties, lowercase.
(In toCamelCase the final push goes through pushWordChunk, which removes
dots — a no-op here since non-letters were already stripped — and
lowercases; in toDotCase the push lowercases directly.  Both produce
exactly these texts.) -/
def wordTexts (part : Str) : List Str :=
  (splitWS (dotsToSpaces part)).filterMap (fun p =>
    let ol := onlyLetters p
    if ol.isEmpty then none else some (lowerStr ol))

/-- All word texts a non-acronym token contributes, in order. -/
def tokenTexts (t : Str) : List Str :=
  ((splitDigitRuns t).map (fun part =>
    if isAllDigits part then digitTexts part else wordTexts part)).flatten

/-- A classified unit: { type: "word" | "acronym", text } of the source. -/
inductive WordUnit where
  | word (t : Str)
  | acronym (t : Str)
deriving DecidableEq

/-- toCamelCase token classification: an acronym-shaped token (by either
camel regex) yields one acronym unit with dots removed, case preserved;
any other token yields its word texts as word units. -/
def classifyCamelToken (t : Str) : List WordUnit :=
  if matchesAcronym t || matchesDottedCamel t then [.acronym (removeDots t)]
  else (tokenTexts t).map .word

/-- toDotCase token classification: an acronym-shaped token (by either
dot regex) yields its text with dots removed, case preserved; any other
token yields its word texts (already lowercased). -/
def classifyDotToken (t : Str) : List Str :=
  if matchesAcronym t || matchesDottedDot t then [removeDots t]
  else tokenTexts t

/-- u.text.charAt(0).toUpperCase() + u.text.slice(1).toLowerCase(). -/
def capitalizeWord : Str → Str
  | [] => []
  | c :: cs => upperN c :: lowerStr cs

/-- Rendering of one unit in the camelCase loop: acronyms are emitted
unchanged; the first word is fully lowercased, later words capitalized. -/
def renderCamelUnit (first : Bool) : WordUnit → Str
  | .acronym t => t
  | .word t => if first then lowerStr t else capitalizeWord t

/-- The camelCase rendering loop over the unit sequence. -/
def renderCamel : List WordUnit → Str
  | [] => []
  | u :: us => renderCamelUnit true u ++ (us.map (renderCamelUnit false)).flatten

/-- The five error messages of the camelCase/dot-case family. -/
def msgNull : Str := strLit "Invalid input: value is null or undefined; expected a non-empty string."

def msgNotStr : Str := strLit "Invalid input: expected a string."

def msgEmpty : Str := strLit "Invalid input: empty or whitespace-only string."

def msgNoTokens : Str := strLit "Invalid input: no usable words found after cleaning."

def msgNoUnits : Str := strLit "Invalid input: no word tokens produced after processing."

/-- The raw tokens of the refined pipeline: clean the trimmed input and
split on whitespace. -/
def rawTokensOf (s : Str) : List Str := splitWS (cleanRefined (trimStr s))

/-- The full unit sequence toCamelCase builds for a string input. -/
def camelUnitsOf (s : Str) : List WordUnit :=
  ((rawTokensOf s).map classifyCamelToken).flatten

/-- The full word list toDotCase builds for a string input. -/
def dotWordsOf (s : Str) : List Str :=
  ((rawTokensOf s).map classifyDotToken).flatten

/-- toCamelCase of src/refined_prompt.js. -/
def toCamelCase (v : JSVal) : Str :=
  match v with
  | .vnull => msgNull
  | .vundef => msgNull
  | .vnum _ => msgNotStr
  | .vbool _ => msgNotStr
  | .vstr s =>
    if trimStr s = [] then msgEmpty
    else if rawTokensOf s = [] then msgNoTokens
    else if camelUnitsOf s = [] then msgNoUnits
    else renderCamel (camelUnitsOf s)

/-- toDotCase of src/refined_prompt.js. -/
def toDotCase (v : JSVal) : Str :=
  match v with
  | .vnull => msgNull
  | .vundef => msgNull
  | .vnum _ => msgNotStr
  | .vbool _ => msgNotStr
  | .vstr s =>
    if trimStr s = [] then msgEmpty
    else if rawTokensOf s = [] then msgNoTokens
    else if dotWordsOf s = [] then msgNoUnits
    else joinSep [46] (dotWordsOf s)

/-- Characters kept by the kebab cleaning regex [^a-z0-9\s]:
lowercase ASCII letters, digits, whitespace. -/
def keepKebab (c : Nat) : Bool := isLowerN c || isDigitN c || isWS c

/-- result.replace(/[^a-z0-9\s]/g, " "): each non-kept character becomes
one space (no run collapsing: the regex has no quantifier). -/
def replaceKebab (s : Str) : Str := s.map (fun c => if keepKebab c then c else 32)

/-- result.replace(/\s+/g, "-"): each maximal whitespace run becomes one
hyphen.  The flag records whether the previous character was whitespace. -/
def hyphenateAux : Bool → Str → Str
  | _, [] => []
  | inWS, c :: cs =>
    if isWS c then
      if inWS then hyphenateAux true cs else 45 :: hyphenateAux true cs
    else c :: hyphenateAux false cs

/-- result.replace(/\s+/g, "-"). -/
def hyphenate (s : Str) : Str := hyphenateAux false s

/-- The kebab error message. -/
def msgKebab : Str := strLit "Input must be a valid string."

/-- toKebabCase of src/basic_prompt.js: null/undefined/non-string input
returns the error message; the empty string returns the empty string;
otherwise trim, lowercase, replace non-kept characters by spaces, and
collapse whitespace runs to hyphens. -/
def toKebabCase (v : JSVal) : Str :=
  match v with
  | .vstr s =>
    if s = [] then []
    else hyphenate (replaceKebab (lowerStr (trimStr s)))
  | _ => msgKebab

/-- The fallback guard of numberToWords: true exactly when the input is
not a finite number that is at least zero, or is at least 10^12. -/
def nwOutOfDomain (v : JSVal) : Bool :=
  match v with
  | .vnum (.fin i) => decide (i < 0) || decide (1000000000000 ≤ i)
  | _ => true

/-- The effect of the kebab cleaning regex on a hyphen: it is not kept,
so it becomes a space; kept characters stay. -/
def swapDash (c : Nat) : Nat := if c == 45 then 32 else c

example : numberToWords (.vnum (.fin 23)) = strLit "twenty three" := by decide
example : numberToWords (.vnum (.fin 0)) = strLit "zero" := by decide
example : numberToWords (.vnum (.fin 1000)) = strLit "one thousand" := by decide
example : strLit "a" = [97] := by decide
example : splitWS (strLit "ab  cd") = [strLit "ab", strLit "cd"] := by decide
example : matchesAcronym (strLit "NATO.GOV") = true := by decide
example : matchesDottedCamel (strLit "U.S.A.") = true := by decide
example : matchesDottedCamel (strLit "U.S..") = false := by decide
example : matchesDottedDot (strLit "U.S..") = true := by decide
example : toCamelCase (.vstr (strLit "I like to play videogame")) = strLit "iLikeToPlayVideogame" := by decide
example : toCamelCase (.vstr (strLit "The 23 street is far fr$om &here")) = strLit "theTwentyThreeStreetIsFarFrOmHere" := by decide
example : toCamelCase (.vstr (strLit "OECD is an international organization of 38 member countries")) = strLit "OECDIsAnInternationalOrganizationOfThirtyEightMemberCountries" := by decide
example : toDotCase (.vstr (strLit "user_id")) = strLit "user.id" := by decide
example : toDotCase (.vstr (strLit "SCREEN_NAME")) = strLit "SCREEN.NAME" := by decide
example : toDotCase (.vstr (strLit "U.S..")) = strLit "US" := by decide
example : toCamelCase (.vstr (strLit "U.S..")) = strLit "uS" := by decide
example : toKebabCase (.vstr (strLit "Hello World")) = strLit "hello-world" := by decide
example : toKebabCase (.vstr (strLit "Another___Test")) = strLit "another-test" := by decide
example : toKebabCase (.vstr (strLit "Hello!")) = strLit "hello-" := by decide
example : toCamelCase (.vstr (strLit "$")) = msgNoTokens := by decide
example : toCamelCase (.vstr (strLit ".")) = msgNoUnits := by decide
example : numberToWords (.vnum (.fin 1000000000000)) = strLit "1000000000000" := by decide

/-! ## Helper lemmas -/

/-- Lowercasing never produces an uppercase ASCII letter. -/
theorem isUpperN_lowerN (c : Nat) : isUpperN (lowerN c) = false := by
  simp only [lowerN, isUpperN]
  split
  · next h =>
    rw [decide_eq_true_eq] at h
    rw [decide_eq_false_iff_not]
    omega
  · next h =>
    rw [Bool.not_eq_true, decide_eq_false_iff_not] at h
    rw [decide_eq_false_iff_not]
    exact h

/-- Characters of the tokens produced by the whitespace splitter come
from the input or the accumulator, and are never whitespace. -/
theorem splitWSAux_chars :
    ∀ (z acc t : Str), (∀ c ∈ acc, isWS c = false) → t ∈ splitWSAux z acc →
      ∀ c ∈ t, (c ∈ z ∨ c ∈ acc) ∧ isWS c = false := by
  intro z
  induction z with
  | nil =>
    intro acc t hacc ht c hc
    unfold splitWSAux at ht
    split at ht
    · simp at ht
    · simp only [List.mem_singleton] at ht
      subst ht
      rw [List.mem_reverse] at hc
      exact ⟨Or.inr hc, hacc c hc⟩
  | cons d ds ih =>
    intro acc t hacc ht c hc
    unfold splitWSAux at ht
    by_cases hd : isWS d = true
    · rw [if_pos hd] at ht
      split at ht
      · rcases (ih [] t (by simp) ht c hc) with ⟨h1 | h1, h2⟩
        · exact ⟨Or.inl (List.mem_cons_of_mem d h1), h2⟩
        · simp at h1
      · rcases List.mem_cons.mp ht with rfl | ht
        · rw [List.mem_reverse] at hc
          exact ⟨Or.inr hc, hacc c hc⟩
        · rcases (ih [] t (by simp) ht c hc) with ⟨h1 | h1, h2⟩
          · exact ⟨Or.inl (List.mem_cons_of_mem d h1), h2⟩
          · simp at h1
    · rw [if_neg hd] at ht
      have hacc2 : ∀ e ∈ d :: acc, isWS e = false := by
        intro e he
        rcases List.mem_cons.mp he with rfl | he
        · simpa using hd
        · exact hacc e he
      rcases (ih (d :: acc) t hacc2 ht c hc) with ⟨h1 | h1, h2⟩
      · exact ⟨Or.inl (List.mem_cons_of_mem d h1), h2⟩
      · rcases List.mem_cons.mp h1 with rfl | h1
        · exact ⟨Or.inl (List.mem_cons_self c ds), h2⟩
        · exact ⟨Or.inr h1, h2⟩

/-- Characters of a whitespace-split token come from the input and are
not whitespace. -/
theorem splitWS_chars {z t : Str} (ht : t ∈ splitWS z) :
    ∀ c ∈ t, c ∈ z ∧ isWS c = false := by
  intro c hc
  rcases splitWSAux_chars z [] t (by simp) ht c hc with ⟨h1 | h1, h2⟩
  · exact ⟨h1, h2⟩
  · simp at h1

/-- Characters of the cleaned string come from the input or are spaces. -/
theorem cleanRefinedAux_chars :
    ∀ (x : Str) (b : Bool) (c : Nat), c ∈ cleanRefinedAux b x → c ∈ x ∨ c = 32 := by
  intro x
  induction x with
  | nil => intro b c hc; simp [cleanRefinedAux] at hc
  | cons d ds ih =>
    intro b c hc
    unfold cleanRefinedAux at hc
    split at hc
    · rcases List.mem_cons.mp hc with rfl | hc
      · exact Or.inl (List.mem_cons_self c ds)
      · rcases ih false c hc with h | h
        · exact Or.inl (List.mem_cons_of_mem d h)
        · exact Or.inr h
    · split at hc
      · rcases ih true c hc with h | h
        · exact Or.inl (List.mem_cons_of_mem d h)
        · exact Or.inr h
      · rcases List.mem_cons.mp hc with rfl | hc
        · exact Or.inr rfl
        · rcases ih true c hc with h | h
          · exact Or.inl (List.mem_cons_of_mem d h)
          · exact Or.inr h

/-- Characters of the trimmed string come from the input. -/
theorem mem_trimStr {s : Str} {c : Nat} (h : c ∈ trimStr s) : c ∈ s := by
  unfold trimStr at h
  rw [List.mem_reverse] at h
  have h2 := (List.dropWhile_sublist (l := (s.dropWhile isWS).reverse) isWS).subset h
  rw [List.mem_reverse] at h2
  exact (List.dropWhile_sublist (l := s) isWS).subset h2

/-- Every word text a token contributes is the lowercasing of some string. -/
theorem mem_tokenTexts_lowered {t w : Str} (h : w ∈ tokenTexts t) :
    ∃ x, w = lowerStr x := by
  unfold tokenTexts at h
  rw [List.mem_flatten] at h
  obtain ⟨l, hl, hw⟩ := h
  rw [List.mem_map] at hl
  obtain ⟨part, _, rfl⟩ := hl
  by_cases hd : isAllDigits part = true
  · rw [if_pos hd] at hw
    unfold digitTexts at hw
    rw [List.mem_map] at hw
    obtain ⟨x, _, rfl⟩ := hw
    exact ⟨x, rfl⟩
  · rw [if_neg hd] at hw
    unfold wordTexts at hw
    rw [List.mem_filterMap] at hw
    obtain ⟨p, _, hp⟩ := hw
    simp only at hp
    split at hp
    · exact absurd hp (by simp)
    · exact ⟨onlyLetters p, (Option.some.injEq ..).mp hp.symm⟩

/-- A lowered string contains no uppercase ASCII letter. -/
theorem lowerStr_all_not_upper (x : Str) :
    (lowerStr x).all (fun c => !isUpperN c) = true := by
  rw [List.all_eq_true]
  intro c hc
  rw [lowerStr, List.mem_map] at hc
  obtain ⟨d, _, rfl⟩ := hc
  simp [isUpperN_lowerN]

/-- A value L.getD k d satisfies any property that all elements and the
default satisfy. -/
theorem getD_prop {α : Type} (P : α → Prop) :
    ∀ (L : List α) (k : Nat) (d : α), (∀ x ∈ L, P x) → P d → P (L.getD k d)
  | [], k, d, _, hd => by simp [List.getD]; exact hd
  | x :: L, 0, d, hL, _ => by simpa [List.getD] using hL x (by simp)
  | x :: L, k + 1, d, hL, hd => by
    simpa [List.getD] using
      getD_prop P L k d (fun y hy => hL y (List.mem_cons_of_mem x hy)) hd

/-- Characters of a joined list come from the separator or a part. -/
theorem mem_joinSep {sep : Str} {c : Nat} :
    ∀ {L : List Str}, c ∈ joinSep sep L → c ∈ sep ∨ ∃ w ∈ L, c ∈ w
  | [], h => by simp [joinSep] at h
  | [x], h => by
    right
    exact ⟨x, by simp, by simpa [joinSep] using h⟩
  | x :: y :: rest, h => by
    rw [joinSep, List.mem_append, List.mem_append] at h
    rcases h with (h | h) | h
    · exact Or.inr ⟨x, by simp, h⟩
    · exact Or.inl h
    · rcases mem_joinSep h with h | ⟨w, hw, hc⟩
      · exact Or.inl h
      · exact Or.inr ⟨w, List.mem_cons_of_mem x hw, hc⟩

/-- Every word in the parts array of underThousand is all lowercase
ASCII letters. -/
theorem underThousandParts_chars (n : Nat) :
    ∀ w ∈ underThousandParts n, ∀ e ∈ w, isLowerN e = true := by
  have gBT : ∀ k, ∀ e ∈ belowTwenty.getD k [], isLowerN e = true := fun k =>
    getD_prop (fun x => ∀ e ∈ x, isLowerN e = true) belowTwenty k [] (by decide) (by simp)
  have gT : ∀ k, ∀ e ∈ tensTable.getD k [], isLowerN e = true := fun k =>
    getD_prop (fun x => ∀ e ∈ x, isLowerN e = true) tensTable k [] (by decide) (by simp)
  have gH : ∀ e ∈ strLit "hundred", isLowerN e = true := by decide
  intro w hw
  unfold underThousandParts at hw
  split_ifs at hw <;> simp only [] at hw <;> split_ifs at hw <;>
    simp only [List.mem_append, List.mem_cons, List.mem_singleton, List.not_mem_nil,
      or_false, false_or] at hw <;>
    rcases hw with ((rfl | rfl) | rfl) | rfl <;>
    first | exact gBT _ | exact gT _ | exact gH

/-- Characters of the spelled form of a number below one thousand are
lowercase letters or the space. -/
theorem mem_underThousand {n c : Nat} (h : c ∈ underThousand n) :
    isLowerN c = true ∨ c = 32 := by
  unfold underThousand at h
  rcases mem_joinSep h with h32 | ⟨w, hw, hc⟩
  · right; simpa using h32
  · exact Or.inl (underThousandParts_chars n w hw c hc)

/-- The scales fold only accumulates spelled chunks and scale names. -/
theorem foldl_scales_chars (Q : Str → Prop) (hQut : ∀ k, Q (underThousand k)) :
    ∀ (scales : List (Nat × Str)) (acc : List Str × Nat),
      (∀ w ∈ acc.1, Q w) → (∀ s ∈ scales, Q s.2) →
      ∀ w ∈ (scales.foldl numberScaleStep acc).1, Q w := by
  intro scales
  induction scales with
  | nil => intro acc hacc _ w hw; exact hacc w hw
  | cons s ss ih =>
    intro acc hacc hsc w hw
    rw [List.foldl_cons] at hw
    refine ih _ ?_ (fun x hx => hsc x (List.mem_cons_of_mem s hx)) w hw
    intro x hx
    unfold numberScaleStep at hx
    split at hx
    · simp only [List.mem_append, List.mem_cons, List.mem_singleton,
        List.not_mem_nil, or_false] at hx
      rcases hx with hx | rfl | rfl
      · exact hacc x hx
      · exact hQut _
      · exact hsc s (by simp)
    · exact hacc x hx

/-- Characters of the spelled form of an in-range number are lowercase
letters or the space. -/
theorem mem_numberToWordsNat {n c : Nat} (h : c ∈ numberToWordsNat n) :
    isLowerN c = true ∨ c = 32 := by
  unfold numberToWordsNat at h
  split at h
  · have : ∀ e ∈ strLit "zero", isLowerN e = true := by decide
    exact Or.inl (this c h)
  · rcases mem_joinSep h with h32 | ⟨w, hw, hc⟩
    · right; simpa using h32
    · have hQ : ∀ x ∈ numberToWordsParts n, ∀ e ∈ x, isLowerN e = true ∨ e = 32 := by
        intro x hx
        unfold numberToWordsParts at hx
        simp only [] at hx
        have hfold := foldl_scales_chars (fun y => ∀ e ∈ y, isLowerN e = true ∨ e = 32)
          (fun k e he => mem_underThousand he) scalesTable ([], n)
          (by simp) (by decide)
        split at hx
        · simp only [List.mem_append, List.mem_singleton] at hx
          rcases hx with hx | rfl
          · exact hfold x hx
          · exact fun e he => mem_underThousand he
        · exact hfold x hx
      exact hQ w hw c hc

/-- Characters of the decimal form of a natural number are ASCII digits. -/
theorem mem_natToStrAux :
    ∀ (fuel n c : Nat), c ∈ natToStrAux fuel n → 48 ≤ c ∧ c ≤ 57
  | 0, n, c, h => by simp [natToStrAux] at h
  | fuel + 1, n, c, h => by
    rw [natToStrAux] at h
    split at h
    · next hn =>
      simp only [List.mem_singleton] at h
      subst h
      unfold digitCode
      omega
    · next hn =>
      rw [List.mem_append] at h
      rcases h with h | h
      · exact mem_natToStrAux fuel (n / 10) c h
      · simp only [List.mem_singleton] at h
        subst h
        unfold digitCode
        omega

/-- Characters of the output of numberToWords on a natural-number input
are lowercase letters, the space, or digits. -/
theorem mem_numberToWords_nat {k c : Nat}
    (h : c ∈ numberToWords (.vnum (.fin (k : Int)))) :
    isLowerN c = true ∨ c = 32 ∨ isDigitN c = true := by
  simp only [numberToWords] at h
  rw [if_neg (by omega)] at h
  split at h
  · right; right
    have h2 : c ∈ intToStr (k : Int) := h
    have h3 : c ∈ natToStr k := by
      simpa [intToStr, Int.cast_ofNat] using h2
    unfold natToStr at h3
    have := mem_natToStrAux (k + 1) k c h3
    unfold isDigitN
    simpa using this
  · have h4 : c ∈ numberToWordsNat ((k : Int)).toNat := h
    rw [Int.toNat_natCast] at h4
    rcases mem_numberToWordsNat h4 with hl | h32
    · exact Or.inl hl
    · exact Or.inr (Or.inl h32)

/-- Lowercasing maps only the dot to the dot. -/
theorem lowerN_eq_46 {c : Nat} (h : lowerN c = 46) : c = 46 := by
  unfold lowerN at h
  split at h
  · next hu =>
    rw [isUpperN, decide_eq_true_eq] at hu
    omega
  · exact h

/-- Every word text a token contributes is dot-free. -/
theorem mem_tokenTexts_no_dot {t w : Str} (h : w ∈ tokenTexts t) : (46 : Nat) ∉ w := by
  intro hdot
  unfold tokenTexts at h
  rw [List.mem_flatten] at h
  obtain ⟨l, hl, hw⟩ := h
  rw [List.mem_map] at hl
  obtain ⟨part, hpart, rfl⟩ := hl
  by_cases hd : isAllDigits part = true
  · rw [if_pos hd] at hw
    unfold digitTexts at hw
    rw [List.mem_map] at hw
    obtain ⟨x, hx, rfl⟩ := hw
    rw [lowerStr, List.mem_map] at hdot
    obtain ⟨d, hdx, hd46⟩ := hdot
    have hd46b : d = 46 := lowerN_eq_46 hd46
    subst hd46b
    have h46 := (splitWS_chars hx 46 hdx).1
    rcases mem_numberToWords_nat h46 with hh | hh | hh
    · exact absurd hh (by decide)
    · exact absurd hh (by decide)
    · exact absurd hh (by decide)
  · rw [if_neg hd] at hw
    unfold wordTexts at hw
    rw [List.mem_filterMap] at hw
    obtain ⟨p, hp, hsome⟩ := hw
    simp only at hsome
    split at hsome
    · exact absurd hsome (by simp)
    · have hww : lowerStr (onlyLetters p) = w := by
        injection hsome
      subst hww
      rw [lowerStr, List.mem_map] at hdot
      obtain ⟨d, hdx, hd46⟩ := hdot
      have hd46b : d = 46 := lowerN_eq_46 hd46
      subst hd46b
      have hlet : isLetterN 46 = true := List.of_mem_filter hdx
      exact absurd hlet (by decide)

/-- Splitting a dot-free string on dots yields the single group. -/
theorem splitOnDot_no_dot : ∀ {w : Str}, (46 : Nat) ∉ w → splitOnDot w = [w] := by
  intro w
  induction w with
  | nil => intro _; rfl
  | cons c cs ih =>
    intro h
    have hc : c ≠ 46 := fun hcc => h (hcc ▸ List.mem_cons_self c cs)
    have h2 := ih (fun hx => h (List.mem_cons_of_mem c hx))
    unfold splitOnDot
    rw [if_neg (by simpa using hc), h2]

/-- Splitting on dots peels off a leading dot-free group. -/
theorem splitOnDot_append : ∀ (w z : Str), (46 : Nat) ∉ w →
    splitOnDot (w ++ 46 :: z) = w :: splitOnDot z
  | [], z, _ => by simp [splitOnDot]
  | c :: cs, z, h => by
    have hc : c ≠ 46 := fun hcc => h (hcc ▸ List.mem_cons_self c cs)
    have h2 := splitOnDot_append cs z (fun hx => h (List.mem_cons_of_mem c hx))
    show splitOnDot (c :: (cs ++ 46 :: z)) = (c :: cs) :: splitOnDot z
    rw [splitOnDot, if_neg (by simpa using hc), h2]

/-- Splitting a dot-joined list of dot-free words recovers the list. -/
theorem splitOnDot_joinSep : ∀ (ws : List Str), ws ≠ [] →
    (∀ w ∈ ws, (46 : Nat) ∉ w) → splitOnDot (joinSep [46] ws) = ws
  | [], h, _ => absurd rfl h
  | [w], _, hd => by
    show splitOnDot (joinSep [46] [w]) = [w]
    simp only [joinSep]
    exact splitOnDot_no_dot (hd w (by simp))
  | w :: y :: rest, _, hd => by
    have h2 := splitOnDot_joinSep (y :: rest) (by simp)
      (fun x hx => hd x (List.mem_cons_of_mem w hx))
    simp only [joinSep]
    rw [List.append_assoc]
    show splitOnDot (w ++ 46 :: joinSep [46] (y :: rest)) = w :: y :: rest
    rw [splitOnDot_append w _ (hd w (by simp)), h2]

/-- Pointwise equal functions map lists equally. -/
theorem map_congr_mem {α β : Type} : ∀ (l : List α) (f g : α → β),
    (∀ x ∈ l, f x = g x) → l.map f = l.map g
  | [], _, _, _ => rfl
  | x :: xs, f, g, h => by
    rw [List.map_cons, List.map_cons, h x (List.mem_cons_self x xs),
      map_congr_mem xs f g (fun y hy => h y (List.mem_cons_of_mem x hy))]

/-- A map by a function that fixes every member is the identity. -/
theorem map_id_mem {α : Type} : ∀ (l : List α) (f : α → α),
    (∀ x ∈ l, f x = x) → l.map f = l
  | [], _, _ => rfl
  | x :: xs, f, h => by
    rw [List.map_cons, h x (List.mem_cons_self x xs),
      map_id_mem xs f (fun y hy => h y (List.mem_cons_of_mem x hy))]

/-- Unfolding of the hyphenation loop on a whitespace head inside a run. -/
theorem hyphAux_ws_t {c : Nat} {cs : Str} (h : isWS c = true) :
    hyphenateAux true (c :: cs) = hyphenateAux true cs := by
  simp [hyphenateAux, h]

/-- Unfolding of the hyphenation loop on a whitespace head starting a run. -/
theorem hyphAux_ws_f {c : Nat} {cs : Str} (h : isWS c = true) :
    hyphenateAux false (c :: cs) = 45 :: hyphenateAux true cs := by
  simp [hyphenateAux, h]

/-- Unfolding of the hyphenation loop on a non-whitespace head. -/
theorem hyphAux_nws {b : Bool} {c : Nat} {cs : Str} (h : isWS c = false) :
    hyphenateAux b (c :: cs) = c :: hyphenateAux false cs := by
  simp [hyphenateAux, h]

/-- Characters of the hyphenated string are hyphens or non-whitespace
characters of the input. -/
theorem hyphenateAux_chars : ∀ (y : Str) (b : Bool) (c : Nat),
    c ∈ hyphenateAux b y → c = 45 ∨ (c ∈ y ∧ isWS c = false) := by
  intro y
  induction y with
  | nil => intro b c hc; simp [hyphenateAux] at hc
  | cons d ds ih =>
    intro b c hc
    by_cases hd : isWS d = true
    · cases b with
      | true =>
        rw [hyphAux_ws_t hd] at hc
        rcases ih true c hc with h | ⟨h1, h2⟩
        · exact Or.inl h
        · exact Or.inr ⟨List.mem_cons_of_mem d h1, h2⟩
      | false =>
        rw [hyphAux_ws_f hd] at hc
        rcases List.mem_cons.mp hc with rfl | hc
        · exact Or.inl rfl
        · rcases ih true c hc with h | ⟨h1, h2⟩
          · exact Or.inl h
          · exact Or.inr ⟨List.mem_cons_of_mem d h1, h2⟩
    · have hd2 : isWS d = false := by simpa using hd
      rw [hyphAux_nws hd2] at hc
      rcases List.mem_cons.mp hc with rfl | hc
      · exact Or.inr ⟨List.mem_cons_self c ds, hd2⟩
      · rcases ih false c hc with h | ⟨h1, h2⟩
        · exact Or.inl h
        · exact Or.inr ⟨List.mem_cons_of_mem d h1, h2⟩

/-- dropWhile is the identity on a list with no satisfying character. -/
theorem dropWhile_no_ws {l : Str} (h : ∀ c ∈ l, isWS c = false) :
    l.dropWhile isWS = l := by
  cases l with
  | nil => rfl
  | cons c cs =>
    rw [List.dropWhile_cons, if_neg]
    rw [h c (List.mem_cons_self c cs)]
    simp

/-- Trimming is the identity on a whitespace-free string. -/
theorem trimStr_no_ws {z : Str} (h : ∀ c ∈ z, isWS c = false) : trimStr z = z := by
  unfold trimStr
  rw [dropWhile_no_ws h]
  rw [dropWhile_no_ws (fun c hc => h c (List.mem_reverse.mp hc))]
  exact List.reverse_reverse z

/-- Every character of the kebab replacement output is kept. -/
theorem replaceKebab_chars {x : Str} : ∀ c ∈ replaceKebab x, keepKebab c = true := by
  intro c hc
  rw [replaceKebab, List.mem_map] at hc
  obtain ⟨d, hd, rfl⟩ := hc
  split
  · next h => exact h
  · decide

/-- Characters of the kebab output: hyphens, or kept non-whitespace
characters. -/
theorem kebab_out_chars {y : Str} (hy : ∀ c ∈ y, keepKebab c = true) :
    ∀ c ∈ hyphenate y, c = 45 ∨ (keepKebab c = true ∧ isWS c = false) := by
  intro c hc
  rcases hyphenateAux_chars y false c hc with h | ⟨h1, h2⟩
  · exact Or.inl h
  · exact Or.inr ⟨hy c h1, h2⟩

/-- Lowercasing fixes kebab-output characters. -/
theorem lowerN_fix_kebab {c : Nat}
    (h : c = 45 ∨ (keepKebab c = true ∧ isWS c = false)) : lowerN c = c := by
  have hu : isUpperN c = false := by
    rcases h with rfl | ⟨h1, _⟩
    · decide
    · rw [keepKebab, Bool.or_eq_true, Bool.or_eq_true] at h1
      rw [isUpperN, decide_eq_false_iff_not]
      rcases h1 with (h1 | h1) | h1 <;>
        [rw [isLowerN, decide_eq_true_eq] at h1;
         rw [isDigitN, decide_eq_true_eq] at h1;
         rw [isWS, decide_eq_true_eq] at h1] <;> omega
  simp [lowerN, hu]

/-- Applying the hyphenation loop to its own output with hyphens read
back as spaces reproduces the output. -/
theorem hyphenate_swap : ∀ (y : Str) (b : Bool), (∀ c ∈ y, keepKebab c = true) →
    hyphenateAux b ((hyphenateAux b y).map swapDash) = hyphenateAux b y
  | [], _, _ => rfl
  | c :: cs, b, h => by
    have hcs : ∀ e ∈ cs, keepKebab e = true := fun e he => h e (List.mem_cons_of_mem c he)
    by_cases hw : isWS c = true
    · cases b with
      | true =>
        rw [hyphAux_ws_t hw]
        exact hyphenate_swap cs true hcs
      | false =>
        rw [hyphAux_ws_f hw, List.map_cons, show swapDash 45 = 32 from rfl,
          hyphAux_ws_f (show isWS 32 = true by decide), hyphenate_swap cs true hcs]
    · have hw2 : isWS c = false := by simpa using hw
      have hkc : keepKebab c = true := h c (List.mem_cons_self c cs)
      have hc45 : c ≠ 45 := by
        intro hcc
        subst hcc
        exact absurd hkc (by decide)
      rw [hyphAux_nws hw2, List.map_cons,
        show swapDash c = c from by simp [swapDash, hc45],
        hyphAux_nws hw2, hyphenate_swap cs false hcs]

/-- Reapplying the kebab pipeline to a kebab output reproduces it. -/
theorem kebab_idem_core {y : Str} (hy : ∀ c ∈ y, keepKebab c = true) :
    toKebabCase (.vstr (hyphenate y)) = hyphenate y := by
  by_cases hout : hyphenate y = []
  · rw [hout]; rfl
  · have hch := kebab_out_chars hy
    have hnws : ∀ c ∈ hyphenate y, isWS c = false := by
      intro c hc
      rcases hch c hc with rfl | ⟨_, h2⟩
      · decide
      · exact h2
    simp only [toKebabCase]
    rw [if_neg hout]
    rw [trimStr_no_ws hnws]
    rw [show lowerStr (hyphenate y) = hyphenate y from
      map_id_mem _ _ (fun c hc => lowerN_fix_kebab (hch c hc))]
    rw [show replaceKebab (hyphenate y) = (hyphenate y).map swapDash from
      map_congr_mem _ _ _ (fun c hc => by
        rcases hch c hc with rfl | ⟨h1, _⟩
        · rfl
        · have hc45 : c ≠ 45 := fun hcc => by
            subst hcc
            exact absurd h1 (by decide)
          simp [h1, swapDash, hc45])]
    exact hyphenate_swap y false hy

/-- Hyphenating a string that ends in whitespace yields a string ending
in a hyphen (or the empty string when already inside a run). -/
theorem hyphenateAux_ends_dash : ∀ (q : Str) (b : Bool) (w : Nat), isWS w = true →
    (hyphenateAux b (q ++ [w]) = [] ∧ b = true) ∨
      ∃ p, hyphenateAux b (q ++ [w]) = p ++ [45]
  | [], b, w, hw => by
    cases b with
    | true =>
      left
      refine ⟨?_, rfl⟩
      show hyphenateAux true [w] = []
      rw [hyphAux_ws_t hw]
      rfl
    | false =>
      right
      refine ⟨[], ?_⟩
      show hyphenateAux false [w] = [] ++ [45]
      rw [hyphAux_ws_f hw]
      rfl
  | c :: q, b, w, hw => by
    show (hyphenateAux b (c :: (q ++ [w])) = [] ∧ b = true) ∨
      ∃ p, hyphenateAux b (c :: (q ++ [w])) = p ++ [45]
    by_cases hc : isWS c = true
    · cases b with
      | true =>
        rw [hyphAux_ws_t hc]
        rcases hyphenateAux_ends_dash q true w hw with ⟨h1, _⟩ | ⟨p, hp⟩
        · exact Or.inl ⟨h1, rfl⟩
        · exact Or.inr ⟨p, hp⟩
      | false =>
        rw [hyphAux_ws_f hc]
        rcases hyphenateAux_ends_dash q true w hw with ⟨h1, _⟩ | ⟨p, hp⟩
        · right
          refine ⟨[], ?_⟩
          rw [h1]
          rfl
        · right
          refine ⟨45 :: p, ?_⟩
          rw [hp]
          rfl
    · have hc2 : isWS c = false := by simpa using hc
      rw [hyphAux_nws hc2]
      rcases hyphenateAux_ends_dash q false w hw with ⟨_, hb⟩ | ⟨p, hp⟩
      · exact absurd hb (by simp)
      · right
        refine ⟨c :: p, ?_⟩
        rw [hp]
        rfl

/-- An empty trimmed input yields no raw tokens. -/
theorem rawTokens_nil_of_trim {s : Str} (h : trimStr s = []) : rawTokensOf s = [] := by
  unfold rawTokensOf
  rw [h]
  rfl

/-- No raw tokens yields no dot-case words. -/
theorem dotWords_nil_of_tokens {s : Str} (h : rawTokensOf s = []) : dotWordsOf s = [] := by
  unfold dotWordsOf
  rw [h]
  rfl

/-- No raw tokens yields no camel units. -/
theorem camelUnits_nil_of_tokens {s : Str} (h : rawTokensOf s = []) :
    camelUnitsOf s = [] := by
  unfold camelUnitsOf
  rw [h]
  rfl

/-- On the success path toDotCase joins its word list with dots. -/
theorem toDotCase_success {s : Str} (h : dotWordsOf s ≠ []) :
    toDotCase (.vstr s) = joinSep [46] (dotWordsOf s) := by
  have htok : rawTokensOf s ≠ [] := fun ht => h (dotWords_nil_of_tokens ht)
  have htrim : trimStr s ≠ [] := fun ht => htok (rawTokens_nil_of_trim ht)
  simp only [toDotCase]
  rw [if_neg htrim, if_neg htok, if_neg h]

/-- On the success path toCamelCase renders its unit list. -/
theorem toCamelCase_success {s : Str} (h : camelUnitsOf s ≠ []) :
    toCamelCase (.vstr s) = renderCamel (camelUnitsOf s) := by
  have htok : rawTokensOf s ≠ [] := fun ht => h (camelUnits_nil_of_tokens ht)
  have htrim : trimStr s ≠ [] := fun ht => htok (rawTokens_nil_of_trim ht)
  simp only [toCamelCase]
  rw [if_neg htrim, if_neg htok, if_neg h]

/-- On a token neither function classifies as an acronym, the camel
classifier produces exactly the dot classifier words, tagged as words. -/
theorem classifyCamelToken_eq_map_word {t : Str} (h1 : matchesAcronym t = false)
    (h2 : matchesDottedCamel t = false) (h3 : matchesDottedDot t = false) :
    classifyCamelToken t = (classifyDotToken t).map WordUnit.word := by
  unfold classifyCamelToken classifyDotToken
  rw [h1, h2, h3]
  simp

/-- With no acronym-shaped token, both pipelines build the same word
sequence. -/
theorem camelUnits_eq_dotWords {s : Str}
    (hacr : ∀ t ∈ rawTokensOf s, matchesAcronym t = false ∧
      matchesDottedCamel t = false ∧ matchesDottedDot t = false) :
    camelUnitsOf s = (dotWordsOf s).map WordUnit.word := by
  unfold camelUnitsOf dotWordsOf
  rw [List.map_flatten, List.map_map]
  congr 1
  refine map_congr_mem _ _ _ (fun t ht => ?_)
  rcases hacr t ht with ⟨ha, hb, hc⟩
  simpa [Function.comp] using classifyCamelToken_eq_map_word ha hb hc

/-- With no acronym-shaped token, every dot-case word is dot-free. -/
theorem dotWordsOf_no_dot {s : Str}
    (hacr : ∀ t ∈ rawTokensOf s, matchesAcronym t = false ∧ matchesDottedDot t = false) :
    ∀ w ∈ dotWordsOf s, (46 : Nat) ∉ w := by
  intro w hw
  unfold dotWordsOf at hw
  rw [List.mem_flatten] at hw
  obtain ⟨l, hl, hwl⟩ := hw
  rw [List.mem_map] at hl
  obtain ⟨t, ht, rfl⟩ := hl
  rcases hacr t ht with ⟨h1, h2⟩
  unfold classifyDotToken at hwl
  rw [h1, h2, if_neg (by simp)] at hwl
  exact mem_tokenTexts_no_dot hwl

/-! ## Claim theorems -/

/-- C1: of the three documented toCamelCase examples, the first and third
hold, but the second fails on the code: the dollar sign in fr$om is
replaced by a space, so the token splits into fr and om and the output is
theTwentyThreeStreetIsFarFrOmHere, not the documented
theTwentyThreeStreetIsFarFromHere. -/
theorem claim_C1_doc_examples :
    toCamelCase (.vstr (strLit "I like to play videogame")) =
      strLit "iLikeToPlayVideogame" ∧
    toCamelCase (.vstr (strLit "OECD is an international organization of 38 member countries")) =
      strLit "OECDIsAnInternationalOrganizationOfThirtyEightMemberCountries" ∧
    toCamelCase (.vstr (strLit "The 23 street is far fr$om &here")) =
      strLit "theTwentyThreeStreetIsFarFrOmHere" ∧
    toCamelCase (.vstr (strLit "The 23 street is far fr$om &here")) ≠
      strLit "theTwentyThreeStreetIsFarFromHere" :=
  ⟨by decide, by decide, by decide, by decide⟩

/-- C2: for both toCamelCase and toDotCase the five error conditions are
checked in priority order with the five documented messages: null or
undefined input, then non-string input, then empty trimmed input, then
zero tokens after cleaning, then zero word units after processing. -/
theorem claim_C2_error_priority :
    (toCamelCase .vnull = msgNull ∧ toCamelCase .vundef = msgNull ∧
      (∀ n, toCamelCase (.vnum n) = msgNotStr) ∧
      (∀ b, toCamelCase (.vbool b) = msgNotStr) ∧
      (∀ s : Str, trimStr s = [] → toCamelCase (.vstr s) = msgEmpty) ∧
      (∀ s : Str, trimStr s ≠ [] → rawTokensOf s = [] →
        toCamelCase (.vstr s) = msgNoTokens) ∧
      (∀ s : Str, rawTokensOf s ≠ [] → camelUnitsOf s = [] →
        toCamelCase (.vstr s) = msgNoUnits)) ∧
    (toDotCase .vnull = msgNull ∧ toDotCase .vundef = msgNull ∧
      (∀ n, toDotCase (.vnum n) = msgNotStr) ∧
      (∀ b, toDotCase (.vbool b) = msgNotStr) ∧
      (∀ s : Str, trimStr s = [] → toDotCase (.vstr s) = msgEmpty) ∧
      (∀ s : Str, trimStr s ≠ [] → rawTokensOf s = [] →
        toDotCase (.vstr s) = msgNoTokens) ∧
      (∀ s : Str, rawTokensOf s ≠ [] → dotWordsOf s = [] →
        toDotCase (.vstr s) = msgNoUnits)) := by
  refine ⟨⟨rfl, rfl, fun n => rfl, fun b => rfl, ?_, ?_, ?_⟩,
    ⟨rfl, rfl, fun n => rfl, fun b => rfl, ?_, ?_, ?_⟩⟩
  · intro s h
    simp only [toCamelCase]
    rw [if_pos h]
  · intro s h1 h2
    simp only [toCamelCase]
    rw [if_neg h1, if_pos h2]
  · intro s h1 h2
    have htrim : trimStr s ≠ [] := fun ht => h1 (rawTokens_nil_of_trim ht)
    simp only [toCamelCase]
    rw [if_neg htrim, if_neg h1, if_pos h2]
  · intro s h
    simp only [toDotCase]
    rw [if_pos h]
  · intro s h1 h2
    simp only [toDotCase]
    rw [if_neg h1, if_pos h2]
  · intro s h1 h2
    have htrim : trimStr s ≠ [] := fun ht => h1 (rawTokens_nil_of_trim ht)
    simp only [toDotCase]
    rw [if_neg htrim, if_neg h1, if_pos h2]

/-- Witness for C2, instantiated at a whitespace-only, a cleaned-away,
and a dot-only input. -/
theorem claim_C2_error_priority_witness :
    toCamelCase (.vstr (strLit " ")) = msgEmpty ∧
    toCamelCase (.vstr (strLit "$")) = msgNoTokens ∧
    toCamelCase (.vstr (strLit ".")) = msgNoUnits ∧
    toDotCase (.vstr (strLit " ")) = msgEmpty ∧
    toDotCase (.vstr (strLit "$")) = msgNoTokens ∧
    toDotCase (.vstr (strLit ".")) = msgNoUnits := by
  obtain ⟨⟨_, _, _, _, hc3, hc4, hc5⟩, ⟨_, _, _, _, hd3, hd4, hd5⟩⟩ :=
    claim_C2_error_priority
  exact ⟨hc3 _ (by decide), hc4 _ (by decide) (by decide), hc5 _ (by decide) (by decide),
    hd3 _ (by decide), hd4 _ (by decide) (by decide), hd5 _ (by decide) (by decide)⟩

/-- C3: numberToWords spells 0, 23, 100 and 1000 as documented, and on
every input that is not a finite number at least zero, or that is at
least 10^12, it returns the string form of the raw input; in particular
10^12 itself falls back to its digit string. -/
theorem claim_C3_numberToWords :
    numberToWords (.vnum (.fin 0)) = strLit "zero" ∧
    numberToWords (.vnum (.fin 23)) = strLit "twenty three" ∧
    numberToWords (.vnum (.fin 100)) = strLit "one hundred" ∧
    numberToWords (.vnum (.fin 1000)) = strLit "one thousand" ∧
    numberToWords (.vnum (.fin 1000000000000)) = strLit "1000000000000" ∧
    (∀ v : JSVal, nwOutOfDomain v = true → numberToWords v = jsToString v) := by
  refine ⟨by decide, by decide, by decide, by decide, by decide, ?_⟩
  intro v h
  cases v with
  | vnull => rfl
  | vundef => rfl
  | vbool b => rfl
  | vstr s => rfl
  | vnum n =>
    cases n with
    | nan => rfl
    | inf => rfl
    | ninf => rfl
    | fin i =>
      simp only [nwOutOfDomain, Bool.or_eq_true, decide_eq_true_eq] at h
      simp only [numberToWords]
      rcases h with h | h
      · rw [if_pos h]
      · rw [if_neg (by omega), if_pos h]

/-- Witness for C3, instantiated at NaN. -/
theorem claim_C3_numberToWords_witness :
    nwOutOfDomain (.vnum .nan) = true ∧
    numberToWords (.vnum .nan) = jsToString (.vnum .nan) :=
  ⟨by decide, claim_C3_numberToWords.2.2.2.2.2 (.vnum .nan) (by decide)⟩

/-- C6: toKebabCase maps the two documented examples as claimed, returns
the error string for null, undefined and non-string inputs, and returns
the empty string for the empty-string input. -/
theorem claim_C6_kebab_contract :
    toKebabCase (.vstr (strLit "Hello World")) = strLit "hello-world" ∧
    toKebabCase (.vstr (strLit "Another___Test")) = strLit "another-test" ∧
    toKebabCase .vnull = msgKebab ∧
    toKebabCase .vundef = msgKebab ∧
    (∀ n, toKebabCase (.vnum n) = msgKebab) ∧
    (∀ b, toKebabCase (.vbool b) = msgKebab) ∧
    toKebabCase (.vstr (strLit "")) = strLit "" :=
  ⟨by decide, by decide, rfl, rfl, fun n => rfl, fun b => rfl, by decide⟩

/-- C9: the two dotted-acronym patterns differ in the optional trailing
dot, and U.S.. separates them: toDotCase classifies it as one acronym and
returns US, while toCamelCase rejects both patterns, decomposes it into
the words u and s, and returns uS. -/
theorem claim_C9_dotted_acronym_divergence :
    matchesDottedDot (strLit "U.S..") = true ∧
    matchesDottedCamel (strLit "U.S..") = false ∧
    matchesAcronym (strLit "U.S..") = false ∧
    classifyDotToken (strLit "U.S..") = [strLit "US"] ∧
    classifyCamelToken (strLit "U.S..") =
      [WordUnit.word (strLit "u"), WordUnit.word (strLit "s")] ∧
    toDotCase (.vstr (strLit "U.S..")) = strLit "US" ∧
    toCamelCase (.vstr (strLit "U.S..")) = strLit "uS" :=
  ⟨by decide, by decide, by decide, by decide, by decide, by decide, by decide⟩

/-- C4: every token matching either camel acronym pattern yields exactly
one acronym unit, its text the token with dots removed and case
preserved, and the camelCase renderer emits acronym text unchanged both
as the first unit and in any later position. -/
theorem claim_C4_acronym_units :
    (∀ t : Str, (matchesAcronym t || matchesDottedCamel t) = true →
      classifyCamelToken t = [WordUnit.acronym (removeDots t)]) ∧
    (∀ (post : List WordUnit) (t : Str),
      renderCamel (WordUnit.acronym t :: post) =
        t ++ (post.map (renderCamelUnit false)).flatten) ∧
    (∀ (pre post : List WordUnit) (t : Str),
      renderCamel (pre ++ WordUnit.acronym t :: post) =
        renderCamel pre ++ t ++ (post.map (renderCamelUnit false)).flatten) ∧
    toCamelCase (.vstr (strLit "meet NATO.GOV now")) = strLit "meetNATOGOVNow" ∧
    toCamelCase (.vstr (strLit "the U.S.A. rocks")) = strLit "theUSARocks" := by
  refine ⟨?_, ?_, ?_, by decide, by decide⟩
  · intro t h
    unfold classifyCamelToken
    rw [if_pos h]
  · intro post t
    simp [renderCamel, renderCamelUnit]
  · intro pre post t
    cases pre with
    | nil => simp [renderCamel, renderCamelUnit]
    | cons u pres =>
      simp [renderCamel, renderCamelUnit, List.map_append, List.flatten_append,
        List.append_assoc]

/-- Witness for C4, instantiated at U.S.A. -/
theorem claim_C4_acronym_units_witness :
    (matchesAcronym (strLit "U.S.A.") || matchesDottedCamel (strLit "U.S.A.")) = true ∧
    classifyCamelToken (strLit "U.S.A.") = [WordUnit.acronym (strLit "USA")] := by
  have h := claim_C4_acronym_units.1 (strLit "U.S.A.") (by decide)
  exact ⟨by decide, h.trans (by decide)⟩

/-- C5: toDotCase joins all words with dots, keeps acronym-shaped tokens
with their original case (dots removed), lowercases every other word, and
maps the two documented examples as claimed; SCREEN_NAME splits into the
two acronym-shaped tokens SCREEN and NAME. -/
theorem claim_C5_dotcase_render :
    toDotCase (.vstr (strLit "user_id")) = strLit "user.id" ∧
    toDotCase (.vstr (strLit "SCREEN_NAME")) = strLit "SCREEN.NAME" ∧
    rawTokensOf (strLit "SCREEN_NAME") = [strLit "SCREEN", strLit "NAME"] ∧
    matchesAcronym (strLit "SCREEN") = true ∧
    matchesAcronym (strLit "NAME") = true ∧
    (∀ t : Str, (matchesAcronym t || matchesDottedDot t) = true →
      classifyDotToken t = [removeDots t]) ∧
    (∀ t w : Str, (matchesAcronym t || matchesDottedDot t) = false →
      w ∈ classifyDotToken t → w.all (fun c => !isUpperN c) = true) ∧
    (∀ s : Str, dotWordsOf s ≠ [] →
      toDotCase (.vstr s) = joinSep [46] (dotWordsOf s)) := by
  refine ⟨by decide, by decide, by decide, by decide, by decide, ?_, ?_, ?_⟩
  · intro t h
    unfold classifyDotToken
    rw [if_pos h]
  · intro t w h hw
    unfold classifyDotToken at hw
    rw [if_neg (by simp [h])] at hw
    obtain ⟨x, rfl⟩ := mem_tokenTexts_lowered hw
    exact lowerStr_all_not_upper x
  · intro s h
    exact toDotCase_success h

/-- Witness for C5, instantiated at SCREEN and user_id. -/
theorem claim_C5_dotcase_render_witness :
    classifyDotToken (strLit "SCREEN") = [removeDots (strLit "SCREEN")] ∧
    (strLit "user").all (fun c => !isUpperN c) = true ∧
    toDotCase (.vstr (strLit "user_id")) = joinSep [46] (dotWordsOf (strLit "user_id")) := by
  obtain ⟨_, _, _, _, _, h6, h7, h8⟩ := claim_C5_dotcase_render
  exact ⟨h6 _ (by decide), h7 (strLit "user") (strLit "user") (by decide) (by decide),
    h8 _ (by decide)⟩

/-- C8: toKebabCase is idempotent on string inputs. -/
theorem claim_C8_kebab_idempotent (s : Str) :
    toKebabCase (.vstr (toKebabCase (.vstr s))) = toKebabCase (.vstr s) := by
  by_cases hs : s = []
  · subst hs
    rfl
  · have hrw : toKebabCase (.vstr s) = hyphenate (replaceKebab (lowerStr (trimStr s))) := by
      simp only [toKebabCase]
      rw [if_neg hs]
    rw [hrw]
    exact kebab_idem_core (fun c hc => replaceKebab_chars c hc)

/-- C10: when the trimmed input ends in a character that is not a
lowercase letter, digit or whitespace after lowercasing, that character
becomes a space and the trailing whitespace run becomes a hyphen, so
toKebabCase returns a string ending in a hyphen; concretely
toKebabCase of Hello! is hello- . -/
theorem claim_C10_kebab_trailing_hyphen :
    toKebabCase (.vstr (strLit "Hello!")) = strLit "hello-" ∧
    (∀ (s : Str) (c : Nat), (trimStr s).getLast? = some c →
      keepKebab (lowerN c) = false →
      ∃ p, toKebabCase (.vstr s) = p ++ [45]) := by
  refine ⟨by decide, ?_⟩
  intro s c h1 h2
  have hs : s ≠ [] := by
    intro hss
    subst hss
    simp [trimStr] at h1
  obtain ⟨q, hq⟩ : ∃ q, trimStr s = q ++ [c] :=
    ⟨(trimStr s).dropLast, (List.dropLast_append_getLast? c h1).symm⟩
  have hfn : toKebabCase (.vstr s) = hyphenate (replaceKebab (lowerStr (trimStr s))) := by
    simp only [toKebabCase]
    rw [if_neg hs]
  rw [hfn, hq]
  rw [lowerStr, List.map_append]
  rw [replaceKebab, List.map_append]
  rw [show List.map (fun d => if keepKebab d then d else 32) (List.map lowerN [c]) = [32] from by
    simp [h2]]
  unfold hyphenate
  rcases hyphenateAux_ends_dash
    (List.map (fun d => if keepKebab d then d else 32) (List.map lowerN q)) false 32
    (by decide) with ⟨_, hb⟩ | hp
  · exact absurd hb (by simp)
  · exact hp

/-- Witness for C10, instantiated at Hello! (final character 33). -/
theorem claim_C10_kebab_trailing_hyphen_witness :
    (trimStr (strLit "Hello!")).getLast? = some 33 ∧
    keepKebab (lowerN 33) = false ∧
    (∃ p, toKebabCase (.vstr (strLit "Hello!")) = p ++ [45]) :=
  ⟨by decide, by decide,
    claim_C10_kebab_trailing_hyphen.2 (strLit "Hello!") 33 (by decide) (by decide)⟩

/-- C7: on a non-empty input of ASCII non-digit characters none of whose
tokens matches any acronym pattern of either function, toCamelCase and
toDotCase classify into the same ordered word sequence; they then differ
only in rendering, and splitting the dot-case output on dots recovers
exactly the word list the camelCase renderer concatenates. -/
theorem claim_C7_camel_dot_agreement (s : Str) (_hne : s ≠ [])
    (_hchars : ∀ c ∈ s, c < 128 ∧ isDigitN c = false)
    (hacr : ∀ t ∈ rawTokensOf s, matchesAcronym t = false ∧
      matchesDottedCamel t = false ∧ matchesDottedDot t = false) :
    camelUnitsOf s = (dotWordsOf s).map WordUnit.word ∧
    (dotWordsOf s ≠ [] →
      toCamelCase (.vstr s) = renderCamel ((dotWordsOf s).map WordUnit.word) ∧
      toDotCase (.vstr s) = joinSep [46] (dotWordsOf s) ∧
      splitOnDot (toDotCase (.vstr s)) = dotWordsOf s) := by
  have hunits := camelUnits_eq_dotWords hacr
  refine ⟨hunits, fun hnz => ?_⟩
  have hcu : camelUnitsOf s ≠ [] := by
    rw [hunits]
    simpa using hnz
  have hdot := toDotCase_success hnz
  refine ⟨by rw [toCamelCase_success hcu, hunits], hdot, ?_⟩
  rw [hdot]
  exact splitOnDot_joinSep (dotWordsOf s) hnz
    (dotWordsOf_no_dot (fun t ht => ⟨(hacr t ht).1, (hacr t ht).2.2⟩))

/-- Witness for C7, instantiated at the input hello world. -/
theorem claim_C7_camel_dot_agreement_witness :
    camelUnitsOf (strLit "hello world") =
      (dotWordsOf (strLit "hello world")).map WordUnit.word ∧
    toCamelCase (.vstr (strLit "hello world")) =
      renderCamel ((dotWordsOf (strLit "hello world")).map WordUnit.word) ∧
    toDotCase (.vstr (strLit "hello world")) =
      joinSep [46] (dotWordsOf (strLit "hello world")) ∧
    splitOnDot (toDotCase (.vstr (strLit "hello world"))) =
      dotWordsOf (strLit "hello world") := by
  have h := claim_C7_camel_dot_agreement (strLit "hello world") (by decide)
    (by decide) (by decide)
  obtain ⟨h1, h2⟩ := h
  obtain ⟨h3, h4, h5⟩ := h2 (by decide)
  exact ⟨h1, h3, h4, h5⟩
